import Mathlib

/-!
Shallow embedding of the md-models structural extraction engine.

The Rust source consumes a `pulldown_cmark` event iterator; here an event
stream is a `List Event` and every consuming function returns the remaining
suffix of the stream.  A Rust `panic!`/`unwrap` failure is modelled as
`Option.none`.  `BTreeMap<String, String>` is modelled as a key-sorted
association list with replace-on-equal insertion.
-/

/-- Markdown structural tags, after `pulldown_cmark::Tag` (only the
constructors the extractor inspects are distinguished; everything else is
`Other`). `List none` is an unordered list, `List (some n)` an ordered one. -/
inductive Tag where
  | Heading (level : Nat)
  | List (start : Option Nat)
  | Item
  | CodeBlockFenced (info : String)
  | CodeBlockIndented
  | Other
deriving DecidableEq

/-- Markdown events, after `pulldown_cmark::Event`. -/
inductive Event where
  | Start (tag : Tag)
  | End (tag : Tag)
  | Text (s : String)
  | Other
deriving DecidableEq

/-- Whether an event is a text run. -/
def Event.isText : Event → Bool
  | .Text _ => true
  | _ => false

/- ## Character-list string primitives mirroring the Rust `str` methods used -/

/-- Rust `str::split(sep)` on a character separator: always yields at least
one (possibly empty) segment. -/
def splitOnChar (sep : Char) : List Char → List (List Char)
  | [] => [[]]
  | c :: rest =>
    if c = sep then [] :: splitOnChar sep rest
    else
      match splitOnChar sep rest with
      | [] => [[c]]
      | h :: t => (c :: h) :: t

/-- Rust `[&str]::join(sep)` restricted to a one-character separator. -/
def joinWithChar (sep : Char) : List (List Char) → List Char
  | [] => []
  | [l] => l
  | l :: ls => l ++ sep :: joinWithChar sep ls

/-- Rust `str::trim`: drop whitespace from both ends. -/
def trimChars (cs : List Char) : List Char :=
  ((cs.dropWhile Char.isWhitespace).reverse.dropWhile Char.isWhitespace).reverse

/-- String-level `split` on a character. -/
def strSplit (sep : Char) (s : String) : List String :=
  (splitOnChar sep s.data).map String.mk

/-- String-level `trim`. -/
def strTrim (s : String) : String := String.mk (trimChars s.data)

/-- Rust `str::replace('"', "")`: delete every double-quote character. -/
def dequote (s : String) : String := String.mk (s.data.filter (fun c => c != '"'))

/-- Rust `str::contains(c)` for a character pattern. -/
def strContains (s : String) (c : Char) : Bool := s.data.any (fun x => x == c)

/-- Rust `str::split_whitespace().next()`: the first maximal run of
non-whitespace characters, or `none` when the string is all whitespace. -/
def firstToken (s : String) : Option String :=
  match (s.data.dropWhile Char.isWhitespace).takeWhile (fun c => !c.isWhitespace) with
  | [] => none
  | cs => some (String.mk cs)

/-- Leftmost match of the regex `\(([^)]+)\)`: scanning left to right, at the
first position where a literal open parenthesis is followed by a nonempty run
of non-close-parenthesis characters and then a close parenthesis, return that
run; otherwise keep scanning. -/
def termAux : List Char → Option (List Char)
  | [] => none
  | c :: rest =>
    if c = '(' then
      let run := rest.takeWhile (fun x => x != ')')
      if run.length ≠ 0 ∧ run.length < rest.length then some run
      else termAux rest
    else termAux rest

/- ## Data model (datamodel.rs / object.rs / attribute.rs shapes) -/

/-- A key/value option attached to an attribute. -/
structure AttrOption where
  key : String
  value : String
deriving DecidableEq

/-- A named, required-or-optional member of an object. -/
structure Attribute where
  name : String
  required : Bool
  options : List AttrOption
deriving DecidableEq

/-- A schema object: name, optional parenthesized term, attributes. -/
structure Object where
  name : String
  term : Option String
  attributes : List Attribute
deriving DecidableEq

/-- An enumeration: name plus a key-sorted string-to-string mapping
(the embedding of `BTreeMap<String, String>`). -/
structure Enumeration where
  name : String
  mappings : List (String × String)
deriving DecidableEq

/-- The aggregate extraction result (front-matter configuration omitted:
it is produced by an external YAML engine and never read by the extractor). -/
structure DataModel where
  name : Option String
  objects : List Object
  enums : List Enumeration
deriving DecidableEq

/-- The mutable state of Pass 1: the model name alongside the growing
object sequence. -/
structure Pass1State where
  name : Option String
  objects : List Object
deriving DecidableEq

/-- Modelled from the spec: `Attribute::new` (attribute.rs is not under
src/) creates an attribute with the given name and required flag and no
options yet. -/
def Attribute.new (name : String) (required : Bool) : Attribute :=
  ⟨name, required, []⟩

/-- Modelled from the spec: `Object::new` (object.rs is not under src/)
creates an object with the given name and term and no attributes yet. -/
def Object.new (name : String) (term : Option String) : Object :=
  ⟨name, term, []⟩

/-- Modelled from the spec: `Object::add_attribute` appends (attributes form
an ordered sequence, always mutated at the most recently appended node). -/
def Object.add_attribute (o : Object) (a : Attribute) : Object :=
  { o with attributes := o.attributes ++ [a] }

/-- Modelled from the spec: `Object::create_new_attribute` makes a brand-new
attribute on the object via the same append path. -/
def Object.create_new_attribute (o : Object) (name : String) (required : Bool) : Object :=
  o.add_attribute (Attribute.new name required)

/-- Modelled from the spec: `Object::has_attributes` — the object has at
least one attribute. -/
def Object.has_attributes (o : Object) : Bool := !o.attributes.isEmpty

/-- Modelled from the spec: `Enumeration::has_values` — the enumeration has
at least one mapping entry. -/
def Enumeration.has_values (e : Enumeration) : Bool := !e.mappings.isEmpty

/-- Rust `Vec::last_mut` followed by in-place mutation: rewrite the last
element of a list, leaving an empty list unchanged. -/
def updateLast {α : Type} (f : α → α) : List α → List α
  | [] => []
  | [a] => [f a]
  | a :: b :: rest => a :: updateLast f (b :: rest)

/- ## Pass 1 (markdown/parser.rs: objects and attributes) -/

/-- parser.rs `extract_name`: the next event must be a text run, whose text
is returned; anything else is a panic (`none`). -/
def extract_name : List Event → Option (String × List Event)
  | .Text s :: rest => some (s, rest)
  | _ => none

/-- parser.rs `extract_attr_name_required`: one read that finds a text run
means optional; otherwise up to two further reads, a text run found there
means required; otherwise panic (`none`). -/
def extract_attr_name_required : List Event → Option (Bool × String × List Event)
  | .Text s :: rest => some (false, s, rest)
  | _ :: .Text s :: rest => some (true, s, rest)
  | _ :: _ :: .Text s :: rest => some (true, s, rest)
  | _ => none

/-- parser.rs `extract_object_term`: first capture of the regex
`\(([^)]+)\)` against the heading text. -/
def extract_object_term (heading : String) : Option String :=
  (termAux heading.data).map String.mk

/-- parser.rs `process_object_heading`: read the heading text, capture the
parenthesized term, and take the first whitespace-delimited token as the
object name (panicking — `none` — when there is none). -/
def process_object_heading (events : List Event) : Option (Object × List Event) :=
  match extract_name events with
  | none => none
  | some (heading, rest) =>
    match firstToken heading with
    | none => none
    | some nm => some (Object.new nm (extract_object_term heading), rest)

/-- parser.rs `extract_attribute_options`: walk events until the closing
unordered-list end (or stream end), collecting the text of each item; a bare
text run `"["` appends the literal `"[]"` to the previously collected string
(panicking — `none` — when there is none). -/
def extract_attribute_options : List String → List Event → Option (List String × List Event)
  | acc, [] => some (acc, [])
  | acc, .Start .Item :: .Text s :: rest => extract_attribute_options (acc ++ [s]) rest
  | _acc, .Start .Item :: _ => none
  | acc, .End (.List none) :: rest => some (acc, rest)
  | acc, .Text s :: rest =>
    if s = "[" then
      match acc.getLast? with
      | some _ => extract_attribute_options (updateLast (fun t => t ++ "[]") acc) rest
      | none => none
    else extract_attribute_options acc rest
  | acc, _ :: rest => extract_attribute_options acc rest

/-- parser.rs `process_option`: split on every colon; assert at least two
segments (`none` models the assertion failure); key is the first segment
trimmed, value is the remaining segments rejoined with colons and trimmed. -/
def process_option (option : String) : Option (String × String) :=
  match splitOnChar ':' option.data with
  | [] => none
  | k :: rest =>
    if rest.length > 0 then
      some (String.mk (trimChars k), String.mk (trimChars (joinWithChar ':' rest)))
    else none

/-- Modelled from the spec: `AttrOption::new` (attribute.rs is not under
src/) creates a key/value option pair. -/
def AttrOption.new (key value : String) : AttrOption :=
  ⟨key, value⟩

/-- Modelled from the spec: `Attribute::add_option` appends an option to the
attribute's ordered option sequence. -/
def Attribute.add_option (a : Attribute) (opt : AttrOption) : Attribute :=
  { a with options := a.options ++ [opt] }

/-- Rewrite the last attribute of an object in place. -/
def Object.map_last_attribute (o : Object) (f : Attribute → Attribute) : Object :=
  { o with attributes := updateLast f o.attributes }

/-- parser.rs `add_option_to_last_attribute`; `get_last_attribute` and
`AttrOption::new`/`add_option` are modelled from the spec (object.rs and
attribute.rs are not under src/): the option is appended to the most
recently created attribute of the most recently created object, panicking
(`none`) when either does not exist. -/
def add_option_to_last_attribute (objects : List Object) (key value : String) :
    Option (List Object) :=
  match objects.getLast? with
  | none => none
  | some o =>
    match o.attributes.getLast? with
    | none => none
    | some _ =>
      some (updateLast
        (fun ob => ob.map_last_attribute (fun a => a.add_option (AttrOption.new key value)))
        objects)

/-- parser.rs `distribute_attribute_options`: a collected string containing a
colon becomes an option on the last attribute of the last object; one
without a colon becomes a brand-new optional attribute on the last object
(`none` models the `unwrap` panic when no object exists). -/
def distribute_attribute_options (objects : List Object) (attr_string : String) :
    Option (List Object) :=
  if strContains attr_string ':' then
    match process_option attr_string with
    | some (k, v) => add_option_to_last_attribute objects k v
    | none => none
  else
    match objects.getLast? with
    | none => none
    | some _ => some (updateLast (fun o => o.create_new_attribute attr_string false) objects)

/-- The `for attr_string in attr_strings` loop of parser.rs
`process_object_event`, distributing each collected string in order. -/
def distributeAll (objects : List Object) : List String → Option (List Object)
  | [] => some objects
  | s :: rest =>
    match distribute_attribute_options objects s with
    | some objs => distributeAll objs rest
    | none => none

/-- parser.rs `process_object_event`: one step of Pass 1 on the current
event, returning the updated state and the remaining stream, or `none` on
any panic. -/
def process_object_event (st : Pass1State) (ev : Event) (rest : List Event) :
    Option (Pass1State × List Event) :=
  match ev with
  | .Start (.Heading 1) =>
    match extract_name rest with
    | some (nm, rest') => some ({ st with name := some nm }, rest')
    | none => none
  | .Start (.Heading 3) =>
    match process_object_heading rest with
    | some (obj, rest') => some ({ st with objects := st.objects ++ [obj] }, rest')
    | none => none
  | .Start (.List none) =>
    match st.objects.getLast? with
    | none => none
    | some lastObj =>
      if lastObj.has_attributes then
        match extract_attribute_options [] rest with
        | some (strs, rest') =>
          match distributeAll st.objects strs with
          | some objs => some ({ st with objects := objs }, rest')
          | none => none
        | none => none
      else
        match extract_attr_name_required rest.tail with
        | some (req, nm, rest') =>
          some ({ st with objects :=
                    updateLast (fun o => o.add_attribute (Attribute.new nm req)) st.objects },
                rest')
        | none => none
  | .Start .Item =>
    match extract_attr_name_required rest with
    | some (req, nm, rest') =>
      match st.objects.getLast? with
      | none => none
      | some _ =>
        some ({ st with objects :=
                  updateLast (fun o => o.add_attribute (Attribute.new nm req)) st.objects },
              rest')
    | none => none
  | _ => some (st, rest)

/-- The Pass 1 driver loop of `parse_markdown`, with explicit fuel: since
each iteration consumes at least the head event and a step never lengthens
the remaining stream, fuel equal to the stream length (as supplied by
`runPass1`) is always sufficient, so the fuel-exhaustion branch is
unreachable from `runPass1`. -/
def runPass1Aux : Nat → Pass1State → List Event → Option Pass1State
  | _, st, [] => some st
  | 0, _, _ :: _ => none
  | fuel + 1, st, ev :: rest =>
    match process_object_event st ev rest with
    | some (st', rest') => runPass1Aux fuel st' rest'
    | none => none

/-- The `while let Some(event) = iterator.next()` loop of Pass 1. -/
def runPass1 (st : Pass1State) (events : List Event) : Option Pass1State :=
  runPass1Aux events.length st events

/- ## Pass 2 (markdown/parser.rs: enumerations) -/

/-- Lexicographic comparison of character lists by code point, the order
`Ord` on Rust strings induces (UTF-8 byte order coincides with code-point
order). -/
def charsLt : List Char → List Char → Bool
  | [], [] => false
  | [], _ :: _ => true
  | _ :: _, [] => false
  | a :: as, b :: bs =>
    if a = b then charsLt as bs
    else decide (a.toNat < b.toNat)

/-- The string ordering used by `BTreeMap<String, _>`. -/
def strLt (a b : String) : Bool := charsLt a.data b.data

/-- `BTreeMap::insert` on the key-sorted association-list model: keep keys
strictly sorted, replacing the stored value when the key is already
present. -/
def btreeInsert (k v : String) : List (String × String) → List (String × String)
  | [] => [(k, v)]
  | (k', v') :: rest =>
    if strLt k k' then (k, v) :: (k', v') :: rest
    else if k = k' then (k, v) :: rest
    else (k', v') :: btreeInsert k v rest

/-- One iteration of the line loop in parser.rs `process_enum_mappings`:
split the line on the equals sign; exactly two segments contribute an entry
(both segments trimmed and with quote characters removed); any other
segment count is skipped. -/
def processEnumLine (e : Enumeration) (line : String) : Enumeration :=
  match strSplit '=' line with
  | [p0, p1] =>
    { e with mappings := btreeInsert (dequote (strTrim p0)) (dequote (strTrim p1)) e.mappings }
  | _ => e

/-- parser.rs `process_enum_mappings`: fold the line loop over the
newline-separated lines of the code-block text. -/
def process_enum_mappings (e : Enumeration) (mappings : String) : Enumeration :=
  (strSplit '\n' mappings).foldl processEnumLine e

/-- parser.rs `process_enum_event`: one step of Pass 2, returning the
updated enumeration sequence and the remaining stream, or `none` on a
panic (`unwrap` of an exhausted stream or of an empty enumeration
sequence). -/
def process_enum_event (enums : List Enumeration) (ev : Event) (rest : List Event) :
    Option (List Enumeration × List Event) :=
  match ev with
  | .Start (.Heading 3) =>
    match extract_name rest with
    | some (nm, rest') => some (enums ++ [⟨nm, []⟩], rest')
    | none => none
  | .Start (.CodeBlockFenced _) =>
    match rest with
    | [] => none
    | ev2 :: rest' =>
      match ev2 with
      | .Text s =>
        match enums.getLast? with
        | none => none
        | some _ => some (updateLast (fun e => process_enum_mappings e s) enums, rest')
      | _ => some (enums, rest')
  | _ => some (enums, rest)

/-- The Pass 2 driver loop, fueled exactly like `runPass1Aux`. -/
def runPass2Aux : Nat → List Enumeration → List Event → Option (List Enumeration)
  | _, enums, [] => some enums
  | 0, _, _ :: _ => none
  | fuel + 1, enums, ev :: rest =>
    match process_enum_event enums ev rest with
    | some (enums', rest') => runPass2Aux fuel enums' rest'
    | none => none

/-- The second `while let` loop of `parse_markdown`. -/
def runPass2 (enums : List Enumeration) (events : List Event) : Option (List Enumeration) :=
  runPass2Aux events.length enums events

/-- The event-level core of parser.rs `parse_markdown`: run Pass 1 and
Pass 2 over the same event stream (the two Rust passes re-tokenize the same
text, hence see the same events), then keep only objects with at least one
attribute and enumerations with at least one mapping.  File access, HTML
stripping, front-matter parsing and the external validator sit outside this
event-level core. -/
def parse_markdown_events (events : List Event) : Option DataModel :=
  match runPass1 ⟨none, []⟩ events with
  | none => none
  | some st =>
    match runPass2 [] events with
    | none => none
    | some enums =>
      some ⟨st.name,
            st.objects.filter (fun o => o.has_attributes),
            enums.filter (fun e => e.has_values)⟩

/- ## Primitive type registry (primitives.rs) -/

/-- primitives.rs `PrimitiveTypes::new`, `types` field. -/
def primitiveTypesList : List String :=
  ["string", "float", "integer", "boolean", "bool", "null"]

/-- primitives.rs `PrimitiveTypes::new`, `json_mappings` field. -/
def json_mappings : List (String × String) :=
  [("string", "string"), ("float", "number"), ("integer", "integer"),
   ("boolean", "boolean"), ("bool", "boolean"), ("null", "null")]

/-- primitives.rs `PrimitiveTypes::is_primitive`. -/
def is_primitive (dtype : String) : Bool := primitiveTypesList.contains dtype

/-- primitives.rs `PrimitiveTypes::filter_non_primitives`. -/
def filter_non_primitives (dtypes : List String) : List String :=
  dtypes.filter (fun d => !is_primitive d)

/-- primitives.rs `PrimitiveTypes::dtype_to_json`: `none` models the
"not a primitive type" panic, otherwise the mapped JSON-Schema type name. -/
def dtype_to_json (dtype : String) : Option String :=
  match json_mappings.find? (fun p => p.1 == dtype) with
  | some p => some p.2
  | none => none

/- ## XML tag model (xmltype.rs) -/

/-- xmltype.rs `XMLType`: a closed variant over attribute- and
element-serialized members, each carrying the redundant wire flag and the
captured name. -/
inductive XMLType where
  | Attribute (is_attr : Bool) (name : String)
  | Element (is_attr : Bool) (name : String)
deriving DecidableEq

/-- The two-field wire shape used by xmltype.rs serialization. -/
structure XMLTypeWire where
  is_attr : Bool
  name : String
deriving DecidableEq

/-- xmltype.rs `XMLType::from_str`: a leading at-sign yields the attribute
variant with the at-sign removed from the name; otherwise the element
variant with the token verbatim.  The Rust parse is total (always `Ok`). -/
def XMLType.from_str (s : String) : XMLType :=
  match s.data with
  | '@' :: rest => .Attribute true (String.mk rest)
  | _ => .Element false s

/-- xmltype.rs `Serialize for XMLType`: both variants emit the two-field
shape verbatim. -/
def XMLType.serialize : XMLType → XMLTypeWire
  | .Attribute a n => ⟨a, n⟩
  | .Element a n => ⟨a, n⟩

/-- xmltype.rs `Deserialize for XMLType`: a true flag reconstructs the
attribute variant, a false flag the element variant. -/
def XMLType.deserialize (w : XMLTypeWire) : XMLType :=
  if w.is_attr then .Attribute true w.name else .Element false w.name

/- ## Derived views used to state properties -/

/-- Lookup in the association-list model of `BTreeMap`: the value stored at
the first entry whose key equals `k`. -/
def lookupMapping (k : String) (m : List (String × String)) : Option String :=
  (m.find? (fun p => p.1 == k)).map Prod.snd

/-- The per-line view of the enumeration mapping grammar: a line splitting on
the equals sign into exactly two segments yields the (trimmed, quote-stripped)
key/value pair, and any other line yields nothing. -/
def parseEnumLine (line : String) : Option (String × String) :=
  match strSplit '=' line with
  | [p0, p1] => some (dequote (strTrim p0), dequote (strTrim p1))
  | _ => none

/-- `btreeInsert` uncurried over a pair, in `foldl` orientation. -/
def insertPair (m : List (String × String)) (p : String × String) : List (String × String) :=
  btreeInsert p.1 p.2 m

/- ## Helper lemmas -/

theorem updateLast_append {α : Type} (f : α → α) (l : List α) (a : α) :
    updateLast f (l ++ [a]) = l ++ [f a] := by
  induction l with
  | nil => rfl
  | cons b l ih =>
    cases l with
    | nil => rfl
    | cons c l => simpa [updateLast] using ih

theorem splitOnChar_ne_nil (sep : Char) (l : List Char) : splitOnChar sep l ≠ [] := by
  cases l with
  | nil => simp [splitOnChar]
  | cons c rest =>
    simp only [splitOnChar]
    split
    · simp
    · split <;> simp

theorem joinWithChar_splitOnChar (sep : Char) (l : List Char) :
    joinWithChar sep (splitOnChar sep l) = l := by
  induction l with
  | nil => rfl
  | cons c rest ih =>
    simp only [splitOnChar]
    split
    · rename_i hc
      cases hsp : splitOnChar sep rest with
      | nil => exact absurd hsp (splitOnChar_ne_nil sep rest)
      | cons h t =>
        rw [hsp] at ih
        simp [joinWithChar, ← ih, hc]
    · rename_i hc
      cases hsp : splitOnChar sep rest with
      | nil => exact absurd hsp (splitOnChar_ne_nil sep rest)
      | cons h t =>
        rw [hsp] at ih
        cases t with
        | nil => simp [joinWithChar] at ih ⊢; rw [ih]
        | cons t1 t2 => simp [joinWithChar] at ih ⊢; rw [ih]

theorem splitOnChar_append (sep : Char) (pre post : List Char) (h : sep ∉ pre) :
    splitOnChar sep (pre ++ sep :: post) = pre :: splitOnChar sep post := by
  induction pre with
  | nil => simp [splitOnChar]
  | cons c pre ih =>
    have hc : c ≠ sep := by
      intro hEq
      exact h (hEq ▸ List.mem_cons_self c pre)
    have hpre : sep ∉ pre := fun hm => h (List.mem_cons_of_mem c hm)
    simp only [List.cons_append, splitOnChar, if_neg (fun hEq => hc hEq), List.append_eq]
    rw [ih hpre]

theorem takeWhile_append_stop (p : Char → Bool) (mid : List Char) (c : Char) (post : List Char)
    (hmid : ∀ x ∈ mid, p x = true) (hstop : p c = false) :
    (mid ++ c :: post).takeWhile p = mid := by
  induction mid with
  | nil => simp [List.takeWhile_cons, hstop]
  | cons m mid ih =>
    have hm : p m = true := hmid m (List.mem_cons_self m mid)
    simp [List.takeWhile_cons, hm, ih (fun x hx => hmid x (List.mem_cons_of_mem m hx))]

theorem termAux_none (l : List Char) (h : '(' ∉ l) : termAux l = none := by
  induction l with
  | nil => rfl
  | cons c rest ih =>
    have hc : c ≠ '(' := fun hEq => h (hEq ▸ List.mem_cons_self c rest)
    simp only [termAux, if_neg hc]
    exact ih (fun hm => h (List.mem_cons_of_mem c hm))

theorem termAux_append (pre mid post : List Char)
    (hpre : '(' ∉ pre) (hmid : ')' ∉ mid) (hne : mid ≠ []) :
    termAux (pre ++ '(' :: (mid ++ ')' :: post)) = some mid := by
  induction pre with
  | nil =>
    have hrun : (mid ++ ')' :: post).takeWhile (fun x => x != ')') = mid := by
      apply takeWhile_append_stop
      · intro x hx
        exact bne_iff_ne.mpr (fun hEq => hmid (hEq ▸ hx))
      · simp
    have hlen : mid.length < (mid ++ ')' :: post).length := by
      simp [List.length_append]
    have hne' : mid.length ≠ 0 := by
      intro h0
      exact hne (List.length_eq_zero.mp h0)
    simp only [List.nil_append, termAux, if_pos rfl, hrun]
    exact if_pos (And.intro hne' hlen)
  | cons c pre ih =>
    have hc : c ≠ '(' := fun hEq => hpre (hEq ▸ List.mem_cons_self c pre)
    simp only [List.cons_append, termAux, if_neg hc]
    exact ih (fun hm => hpre (List.mem_cons_of_mem c hm))

/- ## Stream-length bounds for the event consumers -/

theorem extract_name_length {evs : List Event} {s : String} {rest : List Event}
    (h : extract_name evs = some (s, rest)) : rest.length < evs.length := by
  rw [extract_name.eq_def] at h
  split at h
  · simp at h
    obtain ⟨-, h2⟩ := h
    subst h2
    simp
  · exact absurd h (by simp)

theorem extract_attr_name_required_length {evs : List Event} {b : Bool} {s : String}
    {rest : List Event} (h : extract_attr_name_required evs = some (b, s, rest)) :
    rest.length < evs.length := by
  rw [extract_attr_name_required.eq_def] at h
  split at h <;> simp_all <;> omega

theorem process_object_heading_length {evs : List Event} {o : Object} {rest : List Event}
    (h : process_object_heading evs = some (o, rest)) : rest.length < evs.length := by
  rw [process_object_heading.eq_def] at h
  split at h
  · exact absurd h (by simp)
  · rename_i heading rest' hname
    split at h
    · exact absurd h (by simp)
    · simp at h
      obtain ⟨-, h2⟩ := h
      subst h2
      exact extract_name_length hname

theorem extract_attribute_options_length (acc : List String) (evs : List Event) :
    ∀ strs rest, extract_attribute_options acc evs = some (strs, rest) →
      rest.length ≤ evs.length := by
  induction acc, evs using extract_attribute_options.induct with
  | case1 acc =>
    intro strs rest h
    simp [extract_attribute_options] at h
    simp [h.2]
  | case2 acc s rest ih =>
    intro strs rest' h
    simp only [extract_attribute_options] at h
    have := ih strs rest' h
    simp only [List.length_cons]
    omega
  | case3 _acc tail hno =>
    intro strs rest' h
    cases tail with
    | nil => simp [extract_attribute_options] at h
    | cons e t =>
      cases e with
      | Text s => exact absurd rfl (hno s t)
      | Start tg => simp [extract_attribute_options] at h
      | End tg => simp [extract_attribute_options] at h
      | Other => simp [extract_attribute_options] at h
  | case4 acc rest =>
    intro strs rest' h
    simp [extract_attribute_options] at h
    simp [h.2]
  | case5 acc rest val hlast ih =>
    intro strs rest' h
    simp only [extract_attribute_options, if_pos rfl, hlast] at h
    have := ih strs rest' h
    simp only [List.length_cons]
    omega
  | case6 acc rest hlast =>
    intro strs rest' h
    simp only [extract_attribute_options, if_pos rfl, hlast] at h
    exact absurd h (by simp)
  | case7 acc s rest hs ih =>
    intro strs rest' h
    simp only [extract_attribute_options, if_neg hs] at h
    have := ih strs rest' h
    simp only [List.length_cons]
    omega
  | case8 acc head rest h1 h2 h3 h4 ih =>
    intro strs rest' h
    have hstep : extract_attribute_options acc (head :: rest) = extract_attribute_options acc rest := by
      cases head with
      | Start tg =>
        cases tg with
        | Heading l => simp [extract_attribute_options]
        | List o => simp [extract_attribute_options]
        | Item => exact absurd rfl h2
        | CodeBlockFenced i => simp [extract_attribute_options]
        | CodeBlockIndented => simp [extract_attribute_options]
        | Other => simp [extract_attribute_options]
      | End tg =>
        cases tg with
        | Heading l => simp [extract_attribute_options]
        | List o =>
          cases o with
          | none => exact absurd rfl h3
          | some n => simp [extract_attribute_options]
        | Item => simp [extract_attribute_options]
        | CodeBlockFenced i => simp [extract_attribute_options]
        | CodeBlockIndented => simp [extract_attribute_options]
        | Other => simp [extract_attribute_options]
      | Text s => exact absurd rfl (h4 s)
      | Other => simp [extract_attribute_options]
    rw [hstep] at h
    have := ih strs rest' h
    simp only [List.length_cons]
    omega

theorem process_object_event_length {st : Pass1State} {ev : Event} {rest : List Event}
    {st' : Pass1State} {rest' : List Event}
    (h : process_object_event st ev rest = some (st', rest')) :
    rest'.length ≤ rest.length := by
  rw [process_object_event.eq_def] at h
  split at h
  · split at h
    · rename_i nm r hext
      simp at h
      rw [← h.2]
      exact le_of_lt (extract_name_length hext)
    · exact absurd h (by simp)
  · split at h
    · rename_i obj r hobj
      simp at h
      rw [← h.2]
      exact le_of_lt (process_object_heading_length hobj)
    · exact absurd h (by simp)
  · split at h
    · exact absurd h (by simp)
    · split at h
      · split at h
        · rename_i strs r heao
          split at h
          · simp at h
            rw [← h.2]
            have h1 := extract_attribute_options_length [] rest strs r heao
            exact h1
          · exact absurd h (by simp)
        · exact absurd h (by simp)
      · split at h
        · rename_i req nm r heanr
          simp at h
          rw [← h.2]
          have h1 := extract_attr_name_required_length heanr
          have h2 : rest.tail.length ≤ rest.length := by
            cases rest <;> simp
          omega
        · exact absurd h (by simp)
  · split at h
    · rename_i req nm r heanr
      split at h
      · exact absurd h (by simp)
      · simp at h
        rw [← h.2]
        exact le_of_lt (extract_attr_name_required_length heanr)
    · exact absurd h (by simp)
  · simp at h
    rw [← h.2]

theorem process_enum_event_length {enums : List Enumeration} {ev : Event} {rest : List Event}
    {enums' : List Enumeration} {rest' : List Event}
    (h : process_enum_event enums ev rest = some (enums', rest')) :
    rest'.length ≤ rest.length := by
  rw [process_enum_event.eq_def] at h
  split at h
  · split at h
    · rename_i nm r hext
      simp at h
      rw [← h.2]
      exact le_of_lt (extract_name_length hext)
    · exact absurd h (by simp)
  · split at h
    · exact absurd h (by simp)
    · rename_i ev2 r
      split at h
      · split at h
        · exact absurd h (by simp)
        · simp at h
          rw [← h.2]
          simp
      · simp at h
        rw [← h.2]
        simp
  · simp at h
    rw [← h.2]

theorem runPass1Aux_congr : ∀ f1 f2 : Nat, ∀ st : Pass1State, ∀ evs : List Event,
    evs.length ≤ f1 → evs.length ≤ f2 → runPass1Aux f1 st evs = runPass1Aux f2 st evs := by
  intro f1
  induction f1 with
  | zero =>
    intro f2 st evs h1 _h2
    cases evs with
    | nil => cases f2 <;> rfl
    | cons ev rest => simp at h1
  | succ f1 ih =>
    intro f2 st evs h1 h2
    cases evs with
    | nil => cases f2 <;> rfl
    | cons ev rest =>
      cases f2 with
      | zero => simp at h2
      | succ f2 =>
        simp only [runPass1Aux]
        cases hpoe : process_object_event st ev rest with
        | none => rfl
        | some pr =>
          obtain ⟨st', rest'⟩ := pr
          have hlen := process_object_event_length hpoe
          simp only [List.length_cons] at h1 h2
          exact ih f2 st' rest' (by omega) (by omega)

theorem runPass2Aux_congr : ∀ f1 f2 : Nat, ∀ enums : List Enumeration, ∀ evs : List Event,
    evs.length ≤ f1 → evs.length ≤ f2 → runPass2Aux f1 enums evs = runPass2Aux f2 enums evs := by
  intro f1
  induction f1 with
  | zero =>
    intro f2 enums evs h1 _h2
    cases evs with
    | nil => cases f2 <;> rfl
    | cons ev rest => simp at h1
  | succ f1 ih =>
    intro f2 enums evs h1 h2
    cases evs with
    | nil => cases f2 <;> rfl
    | cons ev rest =>
      cases f2 with
      | zero => simp at h2
      | succ f2 =>
        simp only [runPass2Aux]
        cases hpee : process_enum_event enums ev rest with
        | none => rfl
        | some pr =>
          obtain ⟨enums', rest'⟩ := pr
          have hlen := process_enum_event_length hpee
          simp only [List.length_cons] at h1 h2
          exact ih f2 enums' rest' (by omega) (by omega)

/-- Unfolding rule for the Pass 1 loop: the fueled driver behaves as the
direct recursion on the event stream. -/
theorem runPass1_cons (st : Pass1State) (ev : Event) (rest : List Event) :
    runPass1 st (ev :: rest) =
      match process_object_event st ev rest with
      | some (st', rest') => runPass1 st' rest'
      | none => none := by
  unfold runPass1
  simp only [List.length_cons, runPass1Aux]
  cases hpoe : process_object_event st ev rest with
  | none => rfl
  | some pr =>
    obtain ⟨st', rest'⟩ := pr
    exact runPass1Aux_congr rest.length rest'.length st' rest'
      (process_object_event_length hpoe) (le_refl _)

theorem runPass1_nil (st : Pass1State) : runPass1 st [] = some st := rfl

/-- Unfolding rule for the Pass 2 loop. -/
theorem runPass2_cons (enums : List Enumeration) (ev : Event) (rest : List Event) :
    runPass2 enums (ev :: rest) =
      match process_enum_event enums ev rest with
      | some (enums', rest') => runPass2 enums' rest'
      | none => none := by
  unfold runPass2
  simp only [List.length_cons, runPass2Aux]
  cases hpee : process_enum_event enums ev rest with
  | none => rfl
  | some pr =>
    obtain ⟨enums', rest'⟩ := pr
    exact runPass2Aux_congr rest.length rest'.length enums' rest'
      (process_enum_event_length hpee) (le_refl _)

theorem runPass2_nil (enums : List Enumeration) : runPass2 enums [] = some enums := rfl

/- ## BTreeMap model lemmas -/

theorem charsLt_irrefl : ∀ l : List Char, charsLt l l = false := by
  intro l
  induction l with
  | nil => rfl
  | cons a as ih => simp [charsLt, ih]

theorem charsLt_trans : ∀ a b c : List Char,
    charsLt a b = true → charsLt b c = true → charsLt a c = true := by
  intro a
  induction a with
  | nil =>
    intro b c hab hbc
    cases b with
    | nil => simp [charsLt] at hab
    | cons b1 bs =>
      cases c with
      | nil => simp [charsLt] at hbc
      | cons c1 cs => rfl
  | cons a1 as ih =>
    intro b c hab hbc
    cases b with
    | nil => simp [charsLt] at hab
    | cons b1 bs =>
      cases c with
      | nil => simp [charsLt] at hbc
      | cons c1 cs =>
        simp only [charsLt] at hab hbc ⊢
        by_cases hab1 : a1 = b1
        · rw [if_pos hab1] at hab
          by_cases hbc1 : b1 = c1
          · rw [if_pos hbc1] at hbc
            rw [if_pos (hab1.trans hbc1)]
            exact ih bs cs hab hbc
          · rw [if_neg hbc1] at hbc
            have hac1 : a1 ≠ c1 := hab1 ▸ hbc1
            rw [if_neg hac1]
            rw [hab1]
            exact hbc
        · rw [if_neg hab1] at hab
          by_cases hbc1 : b1 = c1
          · rw [if_pos hbc1] at hbc
            have hac1 : a1 ≠ c1 := hbc1 ▸ hab1
            rw [if_neg hac1]
            rw [← hbc1]
            exact hab
          · rw [if_neg hbc1] at hbc
            have h1 := of_decide_eq_true hab
            have h2 := of_decide_eq_true hbc
            have hac1 : a1 ≠ c1 := by
              intro hEq
              rw [hEq] at h1
              omega
            rw [if_neg hac1]
            exact decide_eq_true (by omega)

theorem charsLt_total_ne : ∀ a b : List Char,
    charsLt a b = false → a ≠ b → charsLt b a = true := by
  intro a
  induction a with
  | nil =>
    intro b h hne
    cases b with
    | nil => exact absurd rfl hne
    | cons b1 bs => simp [charsLt] at h
  | cons a1 as ih =>
    intro b h hne
    cases b with
    | nil => rfl
    | cons b1 bs =>
      simp only [charsLt] at h ⊢
      by_cases hab1 : a1 = b1
      · rw [if_pos hab1] at h
        rw [if_pos hab1.symm]
        refine ih bs h ?_
        intro hEq
        exact hne (by rw [hab1, hEq])
      · rw [if_neg hab1] at h
        rw [if_neg (fun hEq => hab1 hEq.symm)]
        have hle := of_decide_eq_false h
        have hnat : a1.toNat ≠ b1.toNat := by
          intro hEq
          apply hab1
          apply Char.ext
          apply UInt32.ext
          simpa [Char.toNat] using hEq
        exact decide_eq_true (by omega)

theorem strLt_irrefl (a : String) : strLt a a = false := charsLt_irrefl a.data

theorem strLt_trans (a b c : String) (hab : strLt a b = true) (hbc : strLt b c = true) :
    strLt a c = true := charsLt_trans a.data b.data c.data hab hbc

theorem strLt_total_ne (a b : String) (h : strLt a b = false) (hne : a ≠ b) :
    strLt b a = true :=
  charsLt_total_ne a.data b.data h (fun hd => hne (String.ext hd))

theorem strLt_ne (a b : String) (h : strLt a b = true) : a ≠ b := by
  intro hEq
  rw [hEq, strLt_irrefl] at h
  exact Bool.false_ne_true h

theorem btreeInsert_head (k v : String) (m : List (String × String)) :
    ∀ y, (btreeInsert k v m).head? = some y → y.1 = k ∨ m.head? = some y := by
  cases m with
  | nil =>
    intro y hy
    simp [btreeInsert] at hy
    left
    rw [← hy]
  | cons p rest =>
    obtain ⟨k', v'⟩ := p
    intro y hy
    simp only [btreeInsert] at hy
    by_cases h1 : strLt k k' = true
    · rw [if_pos h1] at hy
      simp at hy
      left
      rw [← hy]
    · rw [if_neg h1] at hy
      by_cases h2 : k = k'
      · rw [if_pos h2] at hy
        simp at hy
        left
        rw [← hy]
      · rw [if_neg h2] at hy
        right
        simpa using hy

theorem chain'_btreeInsert (k v : String) (m : List (String × String))
    (h : List.Chain' (fun a b : String × String => strLt a.1 b.1 = true) m) :
    List.Chain' (fun a b : String × String => strLt a.1 b.1 = true) (btreeInsert k v m) := by
  induction m with
  | nil => simp [btreeInsert]
  | cons p rest ih =>
    obtain ⟨k', v'⟩ := p
    rw [List.chain'_cons'] at h
    obtain ⟨hhead, htail⟩ := h
    simp only [btreeInsert]
    by_cases h1 : strLt k k' = true
    · rw [if_pos h1]
      rw [List.chain'_cons']
      refine ⟨?_, List.chain'_cons'.mpr ⟨hhead, htail⟩⟩
      intro y hy
      simp at hy
      rw [← hy]
      exact h1
    · rw [if_neg h1]
      by_cases h2 : k = k'
      · rw [if_pos h2]
        rw [List.chain'_cons']
        refine ⟨?_, htail⟩
        intro y hy
        rw [h2]
        exact hhead y hy
      · rw [if_neg h2]
        have hk : strLt k' k = true :=
          strLt_total_ne k k' (Bool.not_eq_true _ ▸ h1) h2
        rw [List.chain'_cons']
        refine ⟨?_, ih htail⟩
        intro y hy
        rcases btreeInsert_head k v rest y hy with h | h
        · rw [h]
          exact hk
        · exact hhead y h

theorem lookupMapping_btreeInsert_self (k v : String) (m : List (String × String)) :
    lookupMapping k (btreeInsert k v m) = some v := by
  induction m with
  | nil => simp [btreeInsert, lookupMapping, List.find?]
  | cons p rest ih =>
    obtain ⟨k', v'⟩ := p
    simp only [btreeInsert]
    by_cases h1 : strLt k k' = true
    · rw [if_pos h1]
      simp [lookupMapping, List.find?_cons]
    · rw [if_neg h1]
      by_cases h2 : k = k'
      · rw [if_pos h2]
        simp [lookupMapping, List.find?_cons]
      · rw [if_neg h2]
        have hbeq : (k' == k) = false := beq_eq_false_iff_ne.mpr (fun hEq => h2 hEq.symm)
        simp only [lookupMapping, List.find?_cons, hbeq] at ih ⊢
        simpa using ih

theorem lookupMapping_btreeInsert_ne (k k' v : String) (m : List (String × String))
    (h : k' ≠ k) : lookupMapping k' (btreeInsert k v m) = lookupMapping k' m := by
  have hbeq : (k == k') = false := beq_eq_false_iff_ne.mpr (fun hEq => h hEq.symm)
  induction m with
  | nil => simp [btreeInsert, lookupMapping, List.find?_cons, hbeq, List.find?_nil]
  | cons p rest ih =>
    obtain ⟨k2, v2⟩ := p
    simp only [btreeInsert]
    by_cases h1 : strLt k k2 = true
    · rw [if_pos h1]
      simp [lookupMapping, List.find?_cons, hbeq]
    · rw [if_neg h1]
      by_cases h2 : k = k2
      · rw [if_pos h2]
        subst h2
        simp [lookupMapping, List.find?_cons, hbeq]
      · rw [if_neg h2]
        by_cases h3 : k2 = k'
        · subst h3
          simp [lookupMapping, List.find?_cons]
        · have hbeq2 : (k2 == k') = false := beq_eq_false_iff_ne.mpr h3
          simp only [lookupMapping, List.find?_cons, hbeq2] at ih ⊢
          simpa using ih

theorem getLast?_cons_eq {α : Type} (a : α) (l : List α) :
    (a :: l).getLast? =
      match l.getLast? with
      | some x => some x
      | none => some a := by
  cases l with
  | nil => rfl
  | cons b t =>
    rw [List.getLast?_cons_cons]
    cases hl : (b :: t).getLast? with
    | none =>
      exfalso
      have : (b :: t) ≠ [] := by simp
      rw [← List.getLast?_isSome] at this
      rw [hl] at this
      simp at this
    | some x => rfl

theorem foldl_insertPair_lookup (l : List (String × String)) :
    ∀ m : List (String × String), ∀ k : String,
      lookupMapping k (l.foldl insertPair m) =
        match (l.filter (fun p => p.1 == k)).getLast? with
        | some p => some p.2
        | none => lookupMapping k m := by
  induction l with
  | nil =>
    intro m k
    simp
  | cons p t ih =>
    intro m k
    obtain ⟨k1, v1⟩ := p
    rw [List.foldl_cons, ih (insertPair m (k1, v1)) k]
    by_cases hk : k1 = k
    · subst hk
      rw [List.filter_cons_of_pos (by simp)]
      rw [getLast?_cons_eq]
      cases hfl : (t.filter (fun p => p.1 == k1)).getLast? with
      | some q => rfl
      | none =>
        show lookupMapping k1 (insertPair m (k1, v1)) = some v1
        exact lookupMapping_btreeInsert_self k1 v1 m
    · rw [List.filter_cons_of_neg (by simp [hk])]
      cases hfl : (t.filter (fun p => p.1 == k)).getLast? with
      | some q => rfl
      | none =>
        show lookupMapping k (insertPair m (k1, v1)) = lookupMapping k m
        exact lookupMapping_btreeInsert_ne k1 k v1 m (fun hEq => hk hEq.symm)

theorem processEnumLine_skip (e : Enumeration) (line : String)
    (h : (strSplit '=' line).length ≠ 2) : processEnumLine e line = e := by
  rw [processEnumLine.eq_def]
  cases hsp : strSplit '=' line with
  | nil => rfl
  | cons p0 rest =>
    cases rest with
    | nil => rfl
    | cons p1 rest2 =>
      cases rest2 with
      | nil =>
        exfalso
        rw [hsp] at h
        simp at h
      | cons p2 rest3 => rfl

theorem foldl_processEnumLine (lines : List String) :
    ∀ e : Enumeration,
      lines.foldl processEnumLine e =
        ⟨e.name, (lines.filterMap parseEnumLine).foldl insertPair e.mappings⟩ := by
  induction lines with
  | nil =>
    intro e
    rfl
  | cons line t ih =>
    intro e
    rw [List.foldl_cons, List.filterMap_cons]
    cases hsp : strSplit '=' line with
    | nil =>
      rw [processEnumLine.eq_def, hsp]
      rw [parseEnumLine.eq_def, hsp]
      exact ih e
    | cons p0 rest =>
      cases rest with
      | nil =>
        rw [processEnumLine.eq_def, hsp]
        rw [parseEnumLine.eq_def, hsp]
        exact ih e
      | cons p1 rest2 =>
        cases rest2 with
        | nil =>
          rw [processEnumLine.eq_def, hsp]
          rw [parseEnumLine.eq_def, hsp]
          rw [ih]
          rfl
        | cons p2 rest3 =>
          rw [processEnumLine.eq_def, hsp]
          rw [parseEnumLine.eq_def, hsp]
          exact ih e

/- ## Option-grammar lemmas -/

theorem splitOnChar_length_of_mem (sep : Char) (l : List Char) (h : sep ∈ l) :
    2 ≤ (splitOnChar sep l).length := by
  induction l with
  | nil => simp at h
  | cons c rest ih =>
    simp only [splitOnChar]
    by_cases hc : c = sep
    · rw [if_pos hc]
      have := splitOnChar_ne_nil sep rest
      have : 1 ≤ (splitOnChar sep rest).length := by
        cases hsp : splitOnChar sep rest with
        | nil => exact absurd hsp (splitOnChar_ne_nil sep rest)
        | cons a b => simp
      simp only [List.length_cons]
      omega
    · rw [if_neg hc]
      have hmem : sep ∈ rest := by
        rcases List.mem_cons.mp h with h1 | h1
        · exact absurd h1.symm hc
        · exact h1
      have hlen := ih hmem
      cases hsp : splitOnChar sep rest with
      | nil => exact absurd hsp (splitOnChar_ne_nil sep rest)
      | cons a b =>
        rw [hsp] at hlen
        simp only [List.length_cons] at hlen ⊢
        omega

theorem process_option_some_of_contains (s : String) (h : strContains s ':' = true) :
    ∃ k v, process_option s = some (k, v) := by
  have hmem : (':' : Char) ∈ s.data := by
    simp only [strContains, List.any_eq_true] at h
    obtain ⟨x, hx, hbeq⟩ := h
    rwa [show x = ':' from beq_iff_eq.mp hbeq] at hx
  have hlen := splitOnChar_length_of_mem ':' s.data hmem
  unfold process_option
  cases hsp : splitOnChar ':' s.data with
  | nil => rw [hsp] at hlen; simp at hlen
  | cons k rest =>
    rw [hsp] at hlen
    simp only [List.length_cons] at hlen
    refine ⟨String.mk (trimChars k), String.mk (trimChars (joinWithChar ':' rest)), ?_⟩
    show (if rest.length > 0 then
        some (String.mk (trimChars k), String.mk (trimChars (joinWithChar ':' rest)))
      else none) = _
    rw [if_pos (by omega)]

theorem process_option_append (pre post : String) (h : (':' : Char) ∉ pre.data) :
    process_option (pre ++ ":" ++ post) = some (strTrim pre, strTrim post) := by
  have hdata : (pre ++ ":" ++ post).data = pre.data ++ ':' :: post.data := by
    rw [String.data_append, String.data_append]
    show (pre.data ++ [':']) ++ post.data = pre.data ++ ':' :: post.data
    simp
  unfold process_option
  rw [hdata, splitOnChar_append ':' pre.data post.data h]
  cases hsp : splitOnChar ':' post.data with
  | nil => exact absurd hsp (splitOnChar_ne_nil ':' post.data)
  | cons q qs =>
    show (if (q :: qs).length > 0 then
        some (String.mk (trimChars pre.data), String.mk (trimChars (joinWithChar ':' (q :: qs))))
      else none) = some (strTrim pre, strTrim post)
    rw [if_pos (by simp)]
    have hjoin : joinWithChar ':' (q :: qs) = post.data := by
      rw [← hsp]
      exact joinWithChar_splitOnChar ':' post.data
    rw [hjoin]
    rfl

/- ## Sortedness of folded inserts -/

theorem chain'_foldl_insertPair (l : List (String × String)) :
    ∀ m : List (String × String),
      List.Chain' (fun a b : String × String => strLt a.1 b.1 = true) m →
      List.Chain' (fun a b : String × String => strLt a.1 b.1 = true) (l.foldl insertPair m) := by
  induction l with
  | nil => intro m h; exact h
  | cons p t ih =>
    intro m h
    rw [List.foldl_cons]
    exact ih (insertPair m p) (chain'_btreeInsert p.1 p.2 m h)

theorem chain'_strLt_pairwise (l : List String)
    (h : List.Chain' (fun a b : String => strLt a b = true) l) :
    List.Pairwise (fun a b : String => strLt a b = true) l := by
  induction l with
  | nil => exact List.Pairwise.nil
  | cons a t ih =>
    rw [List.chain'_cons'] at h
    obtain ⟨hhead, htail⟩ := h
    refine List.Pairwise.cons ?_ (ih htail)
    intro b hb
    cases t with
    | nil => simp at hb
    | cons h1 t1 =>
      have hah1 : strLt a h1 = true := hhead h1 (by simp)
      rcases List.mem_cons.mp hb with hb1 | hb1
      · rw [hb1]
        exact hah1
      · have hp := ih htail
        have hh1b := (List.pairwise_cons.mp hp).1 b hb1
        exact strLt_trans a h1 b hah1 hh1b

theorem chain'_keys_nodup (m : List (String × String))
    (h : List.Chain' (fun a b : String × String => strLt a.1 b.1 = true) m) :
    (m.map Prod.fst).Nodup := by
  have hc : List.Chain' (fun a b : String => strLt a b = true) (m.map Prod.fst) := by
    rw [List.chain'_map]
    exact h
  have hp := chain'_strLt_pairwise (m.map Prod.fst) hc
  exact hp.imp (fun hlt => strLt_ne _ _ hlt)

/- ## Panic helpers for the driver loops -/

theorem runPass1_list_none_empty (st : Pass1State) (rest : List Event)
    (h : st.objects = []) :
    runPass1 st (Event.Start (Tag.List none) :: rest) = none := by
  rw [runPass1_cons]
  have hpoe : process_object_event st (Event.Start (Tag.List none)) rest = none := by
    unfold process_object_event
    rw [h]
    rfl
  rw [hpoe]

theorem runPass1_item_empty (st : Pass1State) (rest : List Event)
    (h : st.objects = []) :
    runPass1 st (Event.Start Tag.Item :: rest) = none := by
  rw [runPass1_cons]
  have hpoe : process_object_event st (Event.Start Tag.Item) rest = none := by
    unfold process_object_event
    cases hext : extract_attr_name_required rest with
    | none => rfl
    | some triple =>
      obtain ⟨req, nm, r⟩ := triple
      rw [h]
      rfl
  rw [hpoe]

theorem runPass2_codeblock_empty (info s : String) (rest : List Event) :
    runPass2 [] (Event.Start (Tag.CodeBlockFenced info) :: Event.Text s :: rest) = none := by
  rw [runPass2_cons]
  rfl

/- ## Claim theorems -/

/-- C1 counterexample: on a document whose event stream holds two level-1
headings (texts "A" then "B"), Pass 1 finishes with model name "B" — the
text of the LAST level-1 heading — refuting the claim that the first
heading's text is used. -/
theorem c1_first_level1_heading_counterexample :
    runPass1 ⟨none, []⟩
        [Event.Start (Tag.Heading 1), Event.Text "A", Event.End (Tag.Heading 1),
         Event.Start (Tag.Heading 1), Event.Text "B", Event.End (Tag.Heading 1)] =
      some ⟨some "B", []⟩ ∧
    (some "B" : Option String) ≠ some "A" := by
  exact ⟨by decide, by decide⟩

/-- C1 (amended): every level-1 heading followed by a text run overwrites
the model name with that text, irrespective of the previous state; hence a
document with multiple level-1 headings ends with the LAST heading's text as
the model name, as the two-heading document shows. -/
theorem c1_model_name_level1_heading_last_wins :
    (∀ (st : Pass1State) (s : String) (rest : List Event),
        runPass1 st (Event.Start (Tag.Heading 1) :: Event.Text s :: rest) =
          runPass1 { st with name := some s } rest) ∧
    runPass1 ⟨none, []⟩
        [Event.Start (Tag.Heading 1), Event.Text "A", Event.End (Tag.Heading 1),
         Event.Start (Tag.Heading 1), Event.Text "B", Event.End (Tag.Heading 1)] =
      some ⟨some "B", []⟩ := by
  constructor
  · intro st s rest
    rw [runPass1_cons]
    rfl
  · decide

/-- C2: in `extract_attr_name_required`, a text run as the very first event
read yields `required = false` with that text; a non-text first event
followed by a text run in either of the two retry reads yields
`required = true` with that text; and when none of the (up to) three events
read is a text run the extraction aborts (`none`, the panic). -/
theorem c2_attr_required_detection :
    (∀ (s : String) (rest : List Event),
        extract_attr_name_required (Event.Text s :: rest) = some (false, s, rest)) ∧
    (∀ (e : Event) (s : String) (rest : List Event), e.isText = false →
        extract_attr_name_required (e :: Event.Text s :: rest) = some (true, s, rest)) ∧
    (∀ (e1 e2 : Event) (s : String) (rest : List Event),
        e1.isText = false → e2.isText = false →
        extract_attr_name_required (e1 :: e2 :: Event.Text s :: rest) = some (true, s, rest)) ∧
    (∀ evs : List Event, ((evs.take 3).all (fun e => !e.isText)) = true →
        extract_attr_name_required evs = none) := by
  refine ⟨fun s rest => by simp [extract_attr_name_required], ?_, ?_, ?_⟩
  · intro e s rest h
    cases e with
    | Text t => simp [Event.isText] at h
    | Start tg => simp [extract_attr_name_required]
    | End tg => simp [extract_attr_name_required]
    | Other => simp [extract_attr_name_required]
  · intro e1 e2 s rest h1 h2
    cases e1 with
    | Text t => simp [Event.isText] at h1
    | Start tg =>
      cases e2 with
      | Text t => simp [Event.isText] at h2
      | Start tg2 => simp [extract_attr_name_required]
      | End tg2 => simp [extract_attr_name_required]
      | Other => simp [extract_attr_name_required]
    | End tg =>
      cases e2 with
      | Text t => simp [Event.isText] at h2
      | Start tg2 => simp [extract_attr_name_required]
      | End tg2 => simp [extract_attr_name_required]
      | Other => simp [extract_attr_name_required]
    | Other =>
      cases e2 with
      | Text t => simp [Event.isText] at h2
      | Start tg2 => simp [extract_attr_name_required]
      | End tg2 => simp [extract_attr_name_required]
      | Other => simp [extract_attr_name_required]
  · intro evs h
    cases evs with
    | nil => simp [extract_attr_name_required]
    | cons e1 t1 =>
      cases t1 with
      | nil =>
        simp only [List.take, List.all_cons, List.all_nil, Bool.and_true] at h
        cases e1 with
        | Text t => simp [Event.isText] at h
        | Start tg => simp [extract_attr_name_required]
        | End tg => simp [extract_attr_name_required]
        | Other => simp [extract_attr_name_required]
      | cons e2 t2 =>
        cases t2 with
        | nil =>
          simp only [List.take, List.all_cons, List.all_nil, Bool.and_true,
            Bool.and_eq_true] at h
          obtain ⟨h1, h2⟩ := h
          cases e1 with
          | Text t => simp [Event.isText] at h1
          | Start tg =>
            cases e2 with
            | Text t => simp [Event.isText] at h2
            | Start tg2 => simp [extract_attr_name_required]
            | End tg2 => simp [extract_attr_name_required]
            | Other => simp [extract_attr_name_required]
          | End tg =>
            cases e2 with
            | Text t => simp [Event.isText] at h2
            | Start tg2 => simp [extract_attr_name_required]
            | End tg2 => simp [extract_attr_name_required]
            | Other => simp [extract_attr_name_required]
          | Other =>
            cases e2 with
            | Text t => simp [Event.isText] at h2
            | Start tg2 => simp [extract_attr_name_required]
            | End tg2 => simp [extract_attr_name_required]
            | Other => simp [extract_attr_name_required]
        | cons e3 t3 =>
          simp only [List.take, List.all_cons, Bool.and_eq_true] at h
          obtain ⟨h1, h2, h3, -⟩ := h
          cases e1 with
          | Text t => simp [Event.isText] at h1
          | Start tg =>
            cases e2 with
            | Text t => simp [Event.isText] at h2
            | Start tg2 =>
              cases e3 with
              | Text t => simp [Event.isText] at h3
              | Start tg3 => simp [extract_attr_name_required]
              | End tg3 => simp [extract_attr_name_required]
              | Other => simp [extract_attr_name_required]
            | End tg2 =>
              cases e3 with
              | Text t => simp [Event.isText] at h3
              | Start tg3 => simp [extract_attr_name_required]
              | End tg3 => simp [extract_attr_name_required]
              | Other => simp [extract_attr_name_required]
            | Other =>
              cases e3 with
              | Text t => simp [Event.isText] at h3
              | Start tg3 => simp [extract_attr_name_required]
              | End tg3 => simp [extract_attr_name_required]
              | Other => simp [extract_attr_name_required]
          | End tg =>
            cases e2 with
            | Text t => simp [Event.isText] at h2
            | Start tg2 =>
              cases e3 with
              | Text t => simp [Event.isText] at h3
              | Start tg3 => simp [extract_attr_name_required]
              | End tg3 => simp [extract_attr_name_required]
              | Other => simp [extract_attr_name_required]
            | End tg2 =>
              cases e3 with
              | Text t => simp [Event.isText] at h3
              | Start tg3 => simp [extract_attr_name_required]
              | End tg3 => simp [extract_attr_name_required]
              | Other => simp [extract_attr_name_required]
            | Other =>
              cases e3 with
              | Text t => simp [Event.isText] at h3
              | Start tg3 => simp [extract_attr_name_required]
              | End tg3 => simp [extract_attr_name_required]
              | Other => simp [extract_attr_name_required]
          | Other =>
            cases e2 with
            | Text t => simp [Event.isText] at h2
            | Start tg2 =>
              cases e3 with
              | Text t => simp [Event.isText] at h3
              | Start tg3 => simp [extract_attr_name_required]
              | End tg3 => simp [extract_attr_name_required]
              | Other => simp [extract_attr_name_required]
            | End tg2 =>
              cases e3 with
              | Text t => simp [Event.isText] at h3
              | Start tg3 => simp [extract_attr_name_required]
              | End tg3 => simp [extract_attr_name_required]
              | Other => simp [extract_attr_name_required]
            | Other =>
              cases e3 with
              | Text t => simp [Event.isText] at h3
              | Start tg3 => simp [extract_attr_name_required]
              | End tg3 => simp [extract_attr_name_required]
              | Other => simp [extract_attr_name_required]

/-- C2 witness: instantiating the retry rule at a concrete non-text event
and the abort rule at a one-event non-text stream. -/
theorem c2_attr_required_detection_witness :
    (Event.Start Tag.Item).isText = false ∧
    extract_attr_name_required [Event.Start Tag.Item, Event.Text "name"] =
      some (true, "name", []) ∧
    ((([Event.Start Tag.Item] : List Event).take 3).all (fun e => !e.isText)) = true ∧
    extract_attr_name_required [Event.Start Tag.Item] = none := by
  refine ⟨rfl, ?_, by decide, ?_⟩
  · exact c2_attr_required_detection.2.1 (Event.Start Tag.Item) "name" [] rfl
  · exact c2_attr_required_detection.2.2.2 [Event.Start Tag.Item] (by decide)

/-- C3: the enumeration code-block scan equals a fold of `BTreeMap` inserts
over exactly the newline-separated lines that split on the equals sign into
two segments (key/value trimmed and quote-stripped); any line with a
different segment count is skipped leaving the enumeration unchanged; and
the concrete two-line block with a trailing blank line yields exactly the
two-entry mapping. -/
theorem c3_enum_mapping_line_grammar :
    (∀ (e : Enumeration) (s : String),
        process_enum_mappings e s =
          ⟨e.name, ((strSplit '\n' s).filterMap parseEnumLine).foldl insertPair e.mappings⟩) ∧
    (∀ (e : Enumeration) (line : String), (strSplit '=' line).length ≠ 2 →
        processEnumLine e line = e) ∧
    (∀ line : String, (strSplit '=' line).length ≠ 2 → parseEnumLine line = none) ∧
    process_enum_mappings ⟨"E", []⟩ "ONE = \"1\"\nTWO = \"2\"\n" =
      ⟨"E", [("ONE", "1"), ("TWO", "2")]⟩ := by
  refine ⟨?_, processEnumLine_skip, ?_, by decide⟩
  · intro e s
    exact foldl_processEnumLine (strSplit '\n' s) e
  · intro line h
    rw [parseEnumLine.eq_def]
    cases hsp : strSplit '=' line with
    | nil => rfl
    | cons p0 rest =>
      cases rest with
      | nil => rfl
      | cons p1 rest2 =>
        cases rest2 with
        | nil =>
          exfalso
          rw [hsp] at h
          simp at h
        | cons p2 rest3 => rfl

/-- C3 witness: a line with no equals sign (one segment) is skipped without
changing the enumeration, and contributes no parsed entry. -/
theorem c3_enum_mapping_line_grammar_witness :
    (strSplit '=' "just a comment").length ≠ 2 ∧
    processEnumLine ⟨"E", [("A", "1")]⟩ "just a comment" = ⟨"E", [("A", "1")]⟩ ∧
    parseEnumLine "just a comment" = none := by
  refine ⟨by decide, ?_, ?_⟩
  · exact c3_enum_mapping_line_grammar.2.1 ⟨"E", [("A", "1")]⟩ "just a comment" (by decide)
  · exact c3_enum_mapping_line_grammar.2.2.1 "just a comment" (by decide)

/-- C4: starting from a key-sorted mapping (in particular the empty mapping
of a fresh enumeration), the mapping after the code-block scan is still
strictly key-sorted — hence its keys are unique — and the value stored at
any key is the value of the LAST contributing line with that key (later
duplicate lines overwrite earlier ones). -/
theorem c4_enum_mappings_sorted_unique_later_wins :
    (∀ (e : Enumeration) (s : String),
        List.Chain' (fun a b : String × String => strLt a.1 b.1 = true) e.mappings →
          List.Chain' (fun a b : String × String => strLt a.1 b.1 = true)
              (process_enum_mappings e s).mappings ∧
            ((process_enum_mappings e s).mappings.map Prod.fst).Nodup) ∧
    (∀ (e : Enumeration) (s : String) (k : String),
        lookupMapping k (process_enum_mappings e s).mappings =
          match (((strSplit '\n' s).filterMap parseEnumLine).filter
              (fun p => p.1 == k)).getLast? with
          | some p => some p.2
          | none => lookupMapping k e.mappings) := by
  constructor
  · intro e s h
    have hfold := foldl_processEnumLine (strSplit '\n' s) e
    unfold process_enum_mappings
    rw [hfold]
    have hchain := chain'_foldl_insertPair ((strSplit '\n' s).filterMap parseEnumLine)
      e.mappings h
    exact ⟨hchain, chain'_keys_nodup _ hchain⟩
  · intro e s k
    have hfold := foldl_processEnumLine (strSplit '\n' s) e
    unfold process_enum_mappings
    rw [hfold]
    exact foldl_insertPair_lookup ((strSplit '\n' s).filterMap parseEnumLine) e.mappings k

/-- C4 witness: a fresh enumeration's empty mapping is sorted, and after a
block whose first and third lines share the key "B" the scan keeps sorted
unique keys and retains the third line's value. -/
theorem c4_enum_mappings_sorted_unique_later_wins_witness :
    List.Chain' (fun a b : String × String => strLt a.1 b.1 = true)
        (⟨"E", []⟩ : Enumeration).mappings ∧
    (List.Chain' (fun a b : String × String => strLt a.1 b.1 = true)
        (process_enum_mappings ⟨"E", []⟩ "B = 2\nA = 1\nB = 3").mappings ∧
      ((process_enum_mappings ⟨"E", []⟩ "B = 2\nA = 1\nB = 3").mappings.map Prod.fst).Nodup) ∧
    (process_enum_mappings ⟨"E", []⟩ "B = 2\nA = 1\nB = 3").mappings =
      [("A", "1"), ("B", "3")] := by
  refine ⟨by simp, ?_, by decide⟩
  exact c4_enum_mappings_sorted_unique_later_wins.1 ⟨"E", []⟩ "B = 2\nA = 1\nB = 3" (by simp)

/-- C5: a collected options-list string containing a colon becomes an
`AttrOption` appended to the last attribute of the last object, keyed by the
trimmed text before the first colon with the remaining colon-delimited
segments rejoined (so values may contain colons, as the split form shows);
a string with no colon becomes a brand-new optional attribute on the last
object. -/
theorem c5_option_distribution :
    (∀ (objs : List Object) (obj : Object) (attrs : List Attribute) (a : Attribute)
        (s : String), strContains s ':' = true →
        ∃ k v, process_option s = some (k, v) ∧
          distribute_attribute_options
              (objs ++ [{ obj with attributes := attrs ++ [a] }]) s =
            some (objs ++ [{ obj with attributes :=
                attrs ++ [{ a with options := a.options ++ [⟨k, v⟩] }] }])) ∧
    (∀ (pre post : String), (':' : Char) ∉ pre.data →
        process_option (pre ++ ":" ++ post) = some (strTrim pre, strTrim post)) ∧
    (∀ (objs : List Object) (obj : Object) (s : String), strContains s ':' = false →
        distribute_attribute_options (objs ++ [obj]) s =
          some (objs ++ [{ obj with attributes :=
              obj.attributes ++ [Attribute.new s false] }])) := by
  refine ⟨?_, process_option_append, ?_⟩
  · intro objs obj attrs a s hc
    obtain ⟨k, v, hpo⟩ := process_option_some_of_contains s hc
    refine ⟨k, v, hpo, ?_⟩
    unfold distribute_attribute_options
    rw [if_pos hc, hpo]
    unfold add_option_to_last_attribute
    rw [List.getLast?_concat]
    show (match (attrs ++ [a]).getLast? with
      | none => none
      | some _ => some (updateLast
          (fun ob : Object => ob.map_last_attribute (fun x => x.add_option (AttrOption.new k v)))
          (objs ++ [{ obj with attributes := attrs ++ [a] }]))) = _
    rw [List.getLast?_concat]
    rw [updateLast_append]
    show some (objs ++ [Object.map_last_attribute { obj with attributes := attrs ++ [a] }
        (fun x => x.add_option (AttrOption.new k v))]) = _
    unfold Object.map_last_attribute
    simp only [updateLast_append]
    simp [Attribute.add_option, AttrOption.new]
  · intro objs obj s hc
    unfold distribute_attribute_options
    rw [if_neg (by rw [hc]; exact Bool.false_ne_true)]
    rw [List.getLast?_concat]
    show some (updateLast (fun o => o.create_new_attribute s false) (objs ++ [obj])) = _
    rw [updateLast_append]
    rfl

/-- C5 witness: the colon rule at the option line "type: float" under a
one-attribute object, the colon-rejoin rule at a value containing a colon,
and the no-colon rule at the bare string "Thing". -/
theorem c5_option_distribution_witness :
    strContains "type: float" ':' = true ∧
    (∃ k v, process_option "type: float" = some (k, v) ∧
      distribute_attribute_options
          ([] ++ [{ (⟨"Foo", none, []⟩ : Object) with
              attributes := [] ++ [(⟨"name", false, []⟩ : Attribute)] }]) "type: float" =
        some ([] ++ [{ (⟨"Foo", none, []⟩ : Object) with
            attributes := [] ++ [{ (⟨"name", false, []⟩ : Attribute) with
              options := (⟨"name", false, []⟩ : Attribute).options ++ [⟨k, v⟩] }] }])) ∧
    ((':' : Char) ∉ ("key" : String).data) ∧
    process_option ("key" ++ ":" ++ " a:b") = some (strTrim "key", strTrim " a:b") ∧
    strContains "Thing" ':' = false ∧
    distribute_attribute_options ([] ++ [(⟨"Foo", none, []⟩ : Object)]) "Thing" =
      some ([] ++ [{ (⟨"Foo", none, []⟩ : Object) with
          attributes := (⟨"Foo", none, []⟩ : Object).attributes ++
            [Attribute.new "Thing" false] }]) := by
  refine ⟨by decide, ?_, by decide, ?_, by decide, ?_⟩
  · exact c5_option_distribution.1 [] ⟨"Foo", none, []⟩ [] ⟨"name", false, []⟩
      "type: float" (by decide)
  · exact c5_option_distribution.2.1 "key" " a:b" (by decide)
  · exact c5_option_distribution.2.2 [] ⟨"Foo", none, []⟩ "Thing" (by decide)

/-- C6: a level-3 heading whose text has a first whitespace-delimited token
yields an object named by that token, with term given by the regex capture
`extract_object_term`; the capture returns the content of the first
parenthesized substring when one exists and nothing when the heading has no
open parenthesis; "Foo (bar)" gives name "Foo" and term "bar", and "Foo"
gives no term. -/
theorem c6_object_heading_name_term :
    (∀ (h : String) (rest : List Event) (t : String), firstToken h = some t →
        process_object_heading (Event.Text h :: rest) =
          some (Object.new t (extract_object_term h), rest)) ∧
    (∀ (pre mid post : String), ('(' : Char) ∉ pre.data → (')' : Char) ∉ mid.data →
        mid.data ≠ [] →
        extract_object_term (pre ++ "(" ++ mid ++ ")" ++ post) = some mid) ∧
    (∀ h : String, ('(' : Char) ∉ h.data → extract_object_term h = none) ∧
    process_object_heading [Event.Text "Foo (bar)"] =
      some (⟨"Foo", some "bar", []⟩, []) ∧
    process_object_heading [Event.Text "Foo"] = some (⟨"Foo", none, []⟩, []) := by
  refine ⟨?_, ?_, ?_, by decide, by decide⟩
  · intro h rest t ht
    unfold process_object_heading
    show (match firstToken h with
      | none => none
      | some nm => some (Object.new nm (extract_object_term h), rest)) = _
    rw [ht]
  · intro pre mid post hpre hmid hne
    have hdata : (pre ++ "(" ++ mid ++ ")" ++ post).data =
        pre.data ++ '(' :: (mid.data ++ ')' :: post.data) := by
      rw [String.data_append, String.data_append, String.data_append, String.data_append]
      show ((((pre.data ++ ['(']) ++ mid.data) ++ [')']) ++ post.data) = _
      simp
    unfold extract_object_term
    rw [hdata, termAux_append pre.data mid.data post.data hpre hmid hne]
    show some (String.mk mid.data) = some mid
    rfl
  · intro h hp
    unfold extract_object_term
    rw [termAux_none h.data hp]
    rfl

/-- C6 witness: instantiating the rules at the headings "Foo (bar)" and
"Foo". -/
theorem c6_object_heading_name_term_witness :
    firstToken "Foo (bar)" = some "Foo" ∧
    process_object_heading [Event.Text "Foo (bar)"] =
      some (Object.new "Foo" (extract_object_term "Foo (bar)"), []) ∧
    (('(' : Char) ∉ ("Foo " : String).data) ∧
    ((')' : Char) ∉ ("bar" : String).data) ∧
    ("bar" : String).data ≠ [] ∧
    extract_object_term ("Foo " ++ "(" ++ "bar" ++ ")" ++ "") = some "bar" ∧
    (('(' : Char) ∉ ("Foo" : String).data) ∧
    extract_object_term "Foo" = none := by
  refine ⟨by decide, ?_, by decide, by decide, by decide, ?_, by decide, ?_⟩
  · exact c6_object_heading_name_term.1 "Foo (bar)" [] "Foo" (by decide)
  · exact c6_object_heading_name_term.2.1 "Foo " "bar" "" (by decide) (by decide) (by decide)
  · exact c6_object_heading_name_term.2.2.1 "Foo" (by decide)

/-- C7: parsing any token with a leading at-sign yields the attribute
variant with flag true and the at-sign removed from the name, any other
token the element variant with flag false and the token verbatim; the
serialized wire shape of a parsed value is the two-field record, and
deserializing it reconstructs the identical variant; in particular "@id"
serializes to the record with flag true and name "id" and that record
deserializes to the attribute variant. -/
theorem c7_xmltype_parse_roundtrip :
    (∀ (s : String) (rest : List Char), s.data = '@' :: rest →
        XMLType.from_str s = XMLType.Attribute true (String.mk rest)) ∧
    (∀ s : String, (s.data.head? == some '@') = false →
        XMLType.from_str s = XMLType.Element false s) ∧
    (∀ s : String,
        XMLType.deserialize (XMLType.serialize (XMLType.from_str s)) = XMLType.from_str s) ∧
    XMLType.serialize (XMLType.from_str "@id") = ⟨true, "id"⟩ ∧
    XMLType.deserialize ⟨true, "id"⟩ = XMLType.Attribute true "id" := by
  refine ⟨?_, ?_, ?_, by decide, by decide⟩
  · intro s rest h
    unfold XMLType.from_str
    rw [h]
    split
    · rename_i r heq
      rw [(List.cons.inj heq).2]
    · rename_i hne
      exact absurd rfl (hne rest)
  · intro s h
    unfold XMLType.from_str
    cases hd : s.data with
    | nil => rfl
    | cons c cs =>
      rw [hd] at h
      simp only [List.head?] at h
      have hc : c ≠ '@' := by
        intro hEq
        rw [hEq] at h
        simp at h
      show (match c :: cs with
        | '@' :: rest => XMLType.Attribute true (String.mk rest)
        | _ => XMLType.Element false s) = XMLType.Element false s
      split
      · rename_i heq
        exact absurd (List.cons.inj heq).1 hc
      · rfl
  · intro s
    unfold XMLType.from_str
    cases hd : s.data with
    | nil => rfl
    | cons c cs =>
      by_cases hc : c = '@'
      · subst hc
        rfl
      · show XMLType.deserialize (XMLType.serialize (match c :: cs with
          | '@' :: rest => XMLType.Attribute true (String.mk rest)
          | _ => XMLType.Element false s)) = _
        split
        · rename_i heq
          exact absurd (List.cons.inj heq).1 hc
        · rfl

/-- C7 witness: the at-sign rule at "@id" and the verbatim rule at "name". -/
theorem c7_xmltype_parse_roundtrip_witness :
    ("@id" : String).data = '@' :: ['i', 'd'] ∧
    XMLType.from_str "@id" = XMLType.Attribute true (String.mk ['i', 'd']) ∧
    (("name" : String).data.head? == some '@') = false ∧
    XMLType.from_str "name" = XMLType.Element false "name" := by
  refine ⟨by decide, ?_, by decide, ?_⟩
  · exact c7_xmltype_parse_roundtrip.1 "@id" ['i', 'd'] (by decide)
  · exact c7_xmltype_parse_roundtrip.2.1 "name" (by decide)

/-- C8: the JSON-type conversion signals its fatal "not a primitive type"
error (modelled as `none`) exactly on the names outside the six-element
primitive registry, and maps each primitive name to its JSON-Schema type, in
particular "bool" to "boolean" and "float" to "number". -/
theorem c8_dtype_to_json_primitives :
    (∀ d : String, dtype_to_json d = none ↔ is_primitive d = false) ∧
    dtype_to_json "string" = some "string" ∧
    dtype_to_json "float" = some "number" ∧
    dtype_to_json "integer" = some "integer" ∧
    dtype_to_json "boolean" = some "boolean" ∧
    dtype_to_json "bool" = some "boolean" ∧
    dtype_to_json "null" = some "null" := by
  refine ⟨?_, by decide, by decide, by decide, by decide, by decide, by decide⟩
  intro d
  constructor
  · intro h
    by_contra hp
    have hp' : is_primitive d = true := by
      cases hb : is_primitive d with
      | false => exact absurd hb hp
      | true => rfl
    have hmem : d ∈ primitiveTypesList := List.mem_of_elem_eq_true hp'
    simp only [primitiveTypesList, List.mem_cons, List.not_mem_nil, or_false] at hmem
    rcases hmem with h1 | h1 | h1 | h1 | h1 | h1
    all_goals subst h1
    all_goals simp [dtype_to_json, json_mappings, List.find?] at h
  · intro h
    have hmem : d ∉ primitiveTypesList := by
      intro hm
      have : is_primitive d = true := List.elem_eq_true_of_mem hm
      rw [this] at h
      exact absurd h (by simp)
    simp only [primitiveTypesList, List.mem_cons, List.not_mem_nil, or_false, not_or] at hmem
    obtain ⟨h1, h2, h3, h4, h5, h6⟩ := hmem
    have b1 : ("string" == d) = false := beq_eq_false_iff_ne.mpr (fun hEq => h1 hEq.symm)
    have b2 : ("float" == d) = false := beq_eq_false_iff_ne.mpr (fun hEq => h2 hEq.symm)
    have b3 : ("integer" == d) = false := beq_eq_false_iff_ne.mpr (fun hEq => h3 hEq.symm)
    have b4 : ("boolean" == d) = false := beq_eq_false_iff_ne.mpr (fun hEq => h4 hEq.symm)
    have b5 : ("bool" == d) = false := beq_eq_false_iff_ne.mpr (fun hEq => h5 hEq.symm)
    have b6 : ("null" == d) = false := beq_eq_false_iff_ne.mpr (fun hEq => h6 hEq.symm)
    simp [dtype_to_json, json_mappings, List.find?_cons, b1, b2, b3, b4, b5, b6, List.find?_nil]

/-- C8 witness: the error side of the classification at the non-primitive
name "Thing". -/
theorem c8_dtype_to_json_primitives_witness :
    is_primitive "Thing" = false ∧ dtype_to_json "Thing" = none := by
  refine ⟨by decide, ?_⟩
  exact (c8_dtype_to_json_primitives.1 "Thing").mpr (by decide)

/-- C9: whenever extraction succeeds, the final model's object list is
exactly the Pass 1 object sequence filtered to objects with at least one
attribute and the enum list exactly the Pass 2 sequence filtered to
enumerations with at least one mapping (filtering preserves the extraction
order); the filtered lists are fixed points of the filter (so re-filtering
— as a second identical run would — changes nothing); and an extracted
object with no attributes is absent from the final list. -/
theorem c9_empty_filtering :
    ∀ (events : List Event) (dm : DataModel),
      parse_markdown_events events = some dm →
      ∃ st enums,
        runPass1 ⟨none, []⟩ events = some st ∧
        runPass2 [] events = some enums ∧
        dm.objects = st.objects.filter (fun o => o.has_attributes) ∧
        dm.enums = enums.filter (fun e => e.has_values) ∧
        dm.objects.filter (fun o => o.has_attributes) = dm.objects ∧
        dm.enums.filter (fun e => e.has_values) = dm.enums ∧
        (∀ o ∈ st.objects, o.attributes = [] → o ∉ dm.objects) := by
  intro events dm h
  unfold parse_markdown_events at h
  cases h1 : runPass1 ⟨none, []⟩ events with
  | none => rw [h1] at h; exact absurd h (by simp)
  | some st =>
    rw [h1] at h
    cases h2 : runPass2 [] events with
    | none => rw [h2] at h; exact absurd h (by simp)
    | some enums =>
      rw [h2] at h
      simp only [Option.some.injEq] at h
      refine ⟨st, enums, rfl, rfl, ?_, ?_, ?_, ?_, ?_⟩
      · rw [← h]
      · rw [← h]
      · rw [← h]
        simp [List.filter_filter]
      · rw [← h]
        simp [List.filter_filter]
      · intro o ho hattrs
        rw [← h]
        intro hmem
        simp only [List.mem_filter] at hmem
        have : o.has_attributes = true := hmem.2
        rw [Object.has_attributes, hattrs] at this
        simp at this

/-- C9 witness: a document consisting only of a level-3 heading produces an
object (and an enumeration) with no content, and the final model drops
both. -/
theorem c9_empty_filtering_witness :
    parse_markdown_events
        [Event.Start (Tag.Heading 3), Event.Text "Foo", Event.End (Tag.Heading 3)] =
      some ⟨none, [], []⟩ ∧
    (∃ st enums,
        runPass1 ⟨none, []⟩
            [Event.Start (Tag.Heading 3), Event.Text "Foo", Event.End (Tag.Heading 3)] =
          some st ∧
        runPass2 []
            [Event.Start (Tag.Heading 3), Event.Text "Foo", Event.End (Tag.Heading 3)] =
          some enums ∧
        (⟨none, [], []⟩ : DataModel).objects =
          st.objects.filter (fun o => o.has_attributes) ∧
        (⟨none, [], []⟩ : DataModel).enums = enums.filter (fun e => e.has_values) ∧
        (⟨none, [], []⟩ : DataModel).objects.filter (fun o => o.has_attributes) =
          (⟨none, [], []⟩ : DataModel).objects ∧
        (⟨none, [], []⟩ : DataModel).enums.filter (fun e => e.has_values) =
          (⟨none, [], []⟩ : DataModel).enums ∧
        (∀ o ∈ st.objects, o.attributes = [] →
          o ∉ (⟨none, [], []⟩ : DataModel).objects)) := by
  refine ⟨by decide, ?_⟩
  exact c9_empty_filtering
    [Event.Start (Tag.Heading 3), Event.Text "Foo", Event.End (Tag.Heading 3)]
    ⟨none, [], []⟩ (by decide)

/-- C10: a top-level unordered-list start or a list-item start reached by
the Pass 1 scanner while no object has yet been created aborts the pass
(`none`, the `unwrap` panic on the empty object sequence); a fenced code
block whose first content event is a text run reached by the Pass 2 scanner
while no enumeration exists likewise aborts; and consequently a document
opening with a top-level list produces no model at all. -/
theorem c10_premature_list_or_codeblock_panics :
    (∀ (st : Pass1State) (rest : List Event), st.objects = [] →
        runPass1 st (Event.Start (Tag.List none) :: rest) = none) ∧
    (∀ (st : Pass1State) (rest : List Event), st.objects = [] →
        runPass1 st (Event.Start Tag.Item :: rest) = none) ∧
    (∀ (info s : String) (rest : List Event),
        runPass2 [] (Event.Start (Tag.CodeBlockFenced info) :: Event.Text s :: rest) =
          none) ∧
    (∀ rest : List Event,
        parse_markdown_events (Event.Start (Tag.List none) :: rest) = none) := by
  refine ⟨runPass1_list_none_empty, runPass1_item_empty, runPass2_codeblock_empty, ?_⟩
  intro rest
  unfold parse_markdown_events
  rw [runPass1_list_none_empty ⟨none, []⟩ rest rfl]

/-- C10 witness: the panics at concrete one- and two-event documents. -/
theorem c10_premature_list_or_codeblock_panics_witness :
    (⟨none, []⟩ : Pass1State).objects = [] ∧
    runPass1 ⟨none, []⟩ [Event.Start (Tag.List none)] = none ∧
    runPass1 ⟨none, []⟩ [Event.Start Tag.Item] = none ∧
    runPass2 [] [Event.Start (Tag.CodeBlockFenced "t"), Event.Text "A = 1"] = none ∧
    parse_markdown_events [Event.Start (Tag.List none)] = none := by
  refine ⟨rfl, ?_, ?_, ?_, ?_⟩
  · exact c10_premature_list_or_codeblock_panics.1 ⟨none, []⟩ [] rfl
  · exact c10_premature_list_or_codeblock_panics.2.1 ⟨none, []⟩ [] rfl
  · exact c10_premature_list_or_codeblock_panics.2.2.1 "t" "A = 1" []
  · exact c10_premature_list_or_codeblock_panics.2.2.2 []
